import Mathlib

/-
  Verification development for symd (Show Yang Module Dependencies).

  The definitions below are a shallow embedding of src/symd/symd.py (the
  packaged variant; src/symd.py is an older copy whose relevant functions
  are line-for-line identical in the behaviours modelled here, except that
  its node attribute dict lacks the tag entry).

  The graph store is networkx 1.x (setup.py pins networkx>=1.10 and the
  code calls nodes_iter and edges_iter, removed in networkx 2.0).  Two
  networkx facts matter for the embedding:
    - add_node(n, attr_dict=d) treats the attr_dict keyword specially: on
      a fresh node it installs d as the node attribute dictionary, so the
      keys of d (type, tag, imports, revision) become the node attributes;
      on an existing node it updates those keys in place.
    - the assignment G.node[name][quoted attr_dict] = attr performed in the
      replace branch of get_yang_modules is a plain dictionary item
      assignment: it adds one extra key to the node attribute dictionary
      and leaves the type, tag, imports and revision entries untouched.
  A node is therefore modelled as its four regular attributes plus an
  optional stray attrDict entry that nothing in the program ever reads.
-/

namespace Symd

/-! ## Character classes of the four regular expressions -/

/-- The regex class [-A-Za-z0-9]: hyphen, ASCII letters and digits. -/
def isNameChar (c : Char) : Bool := c == '-' || c.isAlpha || c.isDigit

/-- The regex class [-0-9]: hyphen and ASCII digits. -/
def isDateChar (c : Char) : Bool := c == '-' || c.isDigit

/-- A single or double quote character. -/
def isQuoteChar (c : Char) : Bool := c == '"' || c == '\''

/-- The Python regex class \s on ASCII text: space, tab, LF, VT, FF, CR. -/
def isSpaceChar (c : Char) : Bool :=
  c == ' ' || c == '\t' || c == '\n' || c == '\x0b' || c == '\x0c' || c == '\r'

/-- Bool test that the first list is an initial segment of the second. -/
def startsWithChars : List Char → List Char → Bool
  | [], _ => true
  | _ :: _, [] => false
  | a :: as, b :: bs => a == b && startsWithChars as bs

/-- Consume one quote character when present (an optional group
over a single quote character in the regexes). -/
def dropOptQuote : List Char → List Char
  | c :: cs => if isQuoteChar c then cs else c :: cs
  | [] => []

/-! ## Line matchers

Each matcher implements one of the module level regular expressions of
symd.py applied with re.match.  Every one of the four regexes is
deterministic in the following sense: at each star or optional group the
greedy choice is the only one that can lead to an overall match (adjacent
pieces draw from disjoint character classes, and whatever a shortened
greedy piece would leave over cannot be matched by any later piece), so
the backtracking engine reduces to the single left-to-right scan coded
below.  The trailing .*$ of each regex always succeeds on a text line and
is therefore not represented. -/

/-- MODULE_STATEMENT: optional [ \t]* indentation, optional sub, the word
module, one or more spaces, an optional quote, the name group
[-A-Za-z0-9]* with an optional @[0-9-]* suffix (both captured together as
group 3), an optional quote, spaces, an opening brace.  Returns the sub
flag (capture group 1) and the name (capture group 3). -/
def matchModuleLine (line : String) : Option (Bool × String) :=
  let cs0 := line.toList.dropWhile (fun c => c == ' ' || c == '\t')
  let branch : Option (Bool × List Char) :=
    if startsWithChars "submodule".toList cs0 then some (true, cs0.drop 9)
    else if startsWithChars "module".toList cs0 then some (false, cs0.drop 6)
    else none
  match branch with
  | none => none
  | some (isSub, cs1) =>
    match cs1 with
    | ' ' :: cs2 =>
      let cs3 := cs2.dropWhile (fun c => c == ' ')
      let cs4 := dropOptQuote cs3
      let nameMain := cs4.takeWhile isNameChar
      let cs5 := cs4.dropWhile isNameChar
      let sufRest : List Char × List Char :=
        match cs5 with
        | '@' :: cs6 => ('@' :: cs6.takeWhile isDateChar, cs6.dropWhile isDateChar)
        | _ => ([], cs5)
      let cs7 := dropOptQuote sufRest.2
      let cs8 := cs7.dropWhile (fun c => c == ' ')
      match cs8 with
      | '\x7b' :: _ => some (isSub, String.mk (nameMain ++ sufRest.1))
      | _ => none
    | _ => none

/-- Common shape of IMPORT_STATEMENT and INCLUDE_STATEMENT: indentation,
the keyword, \s*, the captured name group [-A-Za-z0-9]*, \s*, an opening
brace.  The clause group that IMPORT_STATEMENT additionally recognizes
after the brace only affects its own (never used) capture group, never
whether the line matches nor the name captured, so it is not modelled. -/
def matchRefLine (keyword : List Char) (line : String) : Option String :=
  let cs0 := line.toList.dropWhile (fun c => c == ' ' || c == '\t')
  if startsWithChars keyword cs0 then
    let cs1 := (cs0.drop keyword.length).dropWhile isSpaceChar
    let name := cs1.takeWhile isNameChar
    let cs2 := (cs1.dropWhile isNameChar).dropWhile isSpaceChar
    match cs2 with
    | '\x7b' :: _ => some (String.mk name)
    | _ => none
  else none

/-- IMPORT_STATEMENT, capture group 1 (the imported name). -/
def matchImportLine (line : String) : Option String :=
  matchRefLine "import".toList line

/-- INCLUDE_STATEMENT, capture group 1 (the included name). -/
def matchIncludeLine (line : String) : Option String :=
  matchRefLine "include".toList line

/-- REVISION_STATEMENT: indentation, the word revision, \s*, an optional
quote, the date group [-0-9]* (capture group 2), an optional quote, \s*,
an opening brace.  Returns the date group. -/
def matchRevisionLine (line : String) : Option String :=
  let cs0 := line.toList.dropWhile (fun c => c == ' ' || c == '\t')
  if startsWithChars "revision".toList cs0 then
    let cs1 := (cs0.drop 8).dropWhile isSpaceChar
    let cs2 := dropOptQuote cs1
    let date := cs2.takeWhile isDateChar
    let cs3 := dropOptQuote (cs2.dropWhile isDateChar)
    let cs4 := cs3.dropWhile isSpaceChar
    match cs4 with
    | '\x7b' :: _ => some (String.mk date)
    | _ => none
  else none

/-! ## parse_yang_module -/

/-- Result quadruple of parse_yang_module. -/
structure ParseResult where
  module : Option String
  modType : Option String
  imports : List String
  revisions : List String
deriving Repr, DecidableEq

/-- The initial parser state (module = None, mod_type = None, empty lists). -/
def initParse : ParseResult := ⟨none, none, [], []⟩

/-- One iteration of the line loop of parse_yang_module: the four regexes
are tried independently on the line; a module match overwrites name and
kind, import and include matches append to imports, a revision match
appends to revisions. -/
def parseStep (st : ParseResult) (line : String) : ParseResult :=
  let st1 := match matchModuleLine line with
    | some m => { st with module := some m.2,
                          modType := some (if m.1 then "sub" else "mod") }
    | none => st
  let st2 := match matchImportLine line with
    | some imp => { st1 with imports := st1.imports ++ [imp] }
    | none => st1
  let st3 := match matchIncludeLine line with
    | some inc => { st2 with imports := st2.imports ++ [inc] }
    | none => st2
  match matchRevisionLine line with
  | some r => { st3 with revisions := st3.revisions ++ [r] }
  | none => st3

/-- parse_yang_module of symd/symd.py (parse_model in symd.py is
identical): scan the lines in order, accumulating the state. -/
def parse_yang_module (lines : List String) : ParseResult :=
  lines.foldl parseStep initParse

/-! ## The dependency graph

A node key is the parsed module name, which can be None (a file with no
matching module statement).  The node value holds the four regular
attributes (the keys written by add_node) plus the stray attrDict entry
written by the replace branch of get_yang_modules; nothing reads it.
The node dictionary is modelled as an association list in insertion
order; keys are unique in every graph the program builds.  An edge is an
ordered key pair as passed to add_edge. -/

/-- A graph key: the module name, or none for a file without a module
statement. -/
abbrev NodeName := Option String

/-- The four node attributes stored by get_yang_modules and
get_unknown_modules: type, tag, imports, revision. -/
structure Attr where
  type : Option String
  tag : String
  imports : List String
  revision : Option String
deriving Repr, DecidableEq

/-- A node attribute dictionary: the four regular attributes, plus the
unused attr_dict entry that the replace branch of get_yang_modules
writes (none when the entry is absent). -/
structure NodeData where
  attrs : Attr
  attrDict : Option Attr
deriving Repr, DecidableEq

/-- The directed graph G: node dictionary (association list in insertion
order) and edge list. -/
structure Graph where
  nodes : List (NodeName × NodeData)
  edges : List (NodeName × NodeName)
deriving Repr, DecidableEq

/-- The empty graph (a fresh nx.DiGraph()). -/
def emptyGraph : Graph := ⟨[], []⟩

/-- Dictionary lookup in G.node (first entry with the key). -/
def lookupNode (g : Graph) (k : NodeName) : Option NodeData :=
  match g.nodes.find? (fun e => e.1 == k) with
  | some e => some e.2
  | none => none

/-- Membership test, the Python test k in G.node. -/
def hasNode (g : Graph) (k : NodeName) : Bool := (lookupNode g k).isSome

/-- networkx 1.x add_node(k, attr_dict=a): on a fresh key, install a as
the attribute dictionary (the four regular keys, no stray entry); on an
existing key, update the four regular keys in place, keeping any other
entry of the node dictionary. -/
def add_node (g : Graph) (k : NodeName) (a : Attr) : Graph :=
  if hasNode g k then
    { g with nodes := g.nodes.map (fun e => if e.1 == k then (e.1, { e.2 with attrs := a }) else e) }
  else
    { g with nodes := g.nodes ++ [(k, ⟨a, none⟩)] }

/-- The item assignment of the replace branch: set the attr_dict entry of
the node dictionary of k, leaving the four regular attributes unchanged.
Only reached when the node exists. -/
def setAttrDict (g : Graph) (k : NodeName) (a : Attr) : Graph :=
  { g with nodes := g.nodes.map (fun e => if e.1 == k then (e.1, { e.2 with attrDict := some a }) else e) }

/-- networkx add_edge on endpoints that already exist as nodes: record
the edge once (edge dictionaries never hold duplicates).  Every call in
the program has both endpoints present (the caller iterates node keys
and guards the target by a membership test), so the node creating side
effect of add_edge never fires and is not modelled. -/
def add_edge (g : Graph) (u v : NodeName) : Graph :=
  if (u, v) ∈ g.edges then g else { g with edges := g.edges ++ [(u, v)] }

/-! ## get_yang_modules -/

/-- Python truthiness of a revision value: None and the empty string are
falsy. -/
def truthy : Option String → Bool
  | none => false
  | some s => !(s == "")

/-- Python string comparison on the underlying character lists:
elementwise by code point, a proper initial segment comes first. -/
def lexLt : List Char → List Char → Bool
  | _, [] => false
  | [], _ :: _ => true
  | a :: as, b :: bs => if a < b then true else if b < a then false else lexLt as bs

/-- Python strict less on two strings. -/
def pyStrLt (a b : String) : Bool := lexLt a.toList b.toList

/-- Python strict greater on two revision values; only consulted when
both are truthy strings. -/
def revGt : Option String → Option String → Bool
  | some a, some b => pyStrLt b a
  | _, _ => false

/-- Python max over a revision list: None when empty (with the missing
revision error report), else the first lexicographically maximal
element. -/
def maxRev : List String → Option String
  | [] => none
  | r :: rs => some (rs.foldl (fun cur x => if pyStrLt cur x then x else cur) r)

/-- The per-file body of get_yang_modules, after parse_yang_module has
produced its quadruple: compute the revision, build the new attribute
set, then either create the node (the KeyError branch: the name is not
yet a key) or run the revision comparison, whose replace action is the
attr_dict item assignment. -/
def ingest (g : Graph) (tag : String) (pr : ParseResult) : Graph :=
  let rev := maxRev pr.revisions
  let attr : Attr := ⟨pr.modType, tag, pr.imports, rev⟩
  match lookupNode g pr.module with
  | some en =>
    let enRev := en.attrs.revision
    if truthy enRev then
      if truthy rev then
        if revGt rev enRev then setAttrDict g pr.module attr else g
      else g
    else
      if truthy rev then setAttrDict g pr.module attr else g
  | none => add_node g pr.module attr

/-- One iteration of the file loop of get_yang_modules on a readable
file: parse the lines, then ingest the result. -/
def scan_file (g : Graph) (tag : String) (lines : List String) : Graph :=
  ingest g tag (parse_yang_module lines)

/-- get_yang_modules over a batch of readable files given as line lists. -/
def get_yang_modules (g : Graph) (files : List (List String)) (tag : String) : Graph :=
  files.foldl (fun acc ls => scan_file acc tag ls) g

/-! ## get_module_dependencies and get_unknown_modules -/

/-- Innermost statement of get_module_dependencies: add the edge from
the node named A to the imported name when that name is a key of the
(current) node dictionary, else report an error and move on. -/
def depEdgeStep (A : NodeName) (acc : Graph) (imp : String) : Graph :=
  if hasNode acc (some imp) then add_edge acc A (some imp) else acc

/-- The imports loop of get_module_dependencies for one node entry. -/
def depNodeStep (acc : Graph) (e : NodeName × NodeData) : Graph :=
  e.2.attrs.imports.foldl (depEdgeStep e.1) acc

/-- get_module_dependencies: for every node key and every name in its
imports attribute, add the edge when the name is a node, else report an
error.  Node keys never change during the loop (add_edge never creates
a node here), so iterating the snapshot g.nodes is the live
iteration. -/
def get_module_dependencies (g : Graph) : Graph :=
  g.nodes.foldl depNodeStep g

/-- The placeholder attribute set of get_unknown_modules. -/
def unknownAttr : Attr := ⟨some "module", "unknown", [], none⟩

/-- The first loop of get_unknown_modules: collect, in iteration order
and with duplicates, every imports entry that is not a node key.  All
membership tests run against the unmodified graph (no node is added
before the second loop). -/
def unknownList (g : Graph) : List String :=
  g.nodes.foldl
    (fun acc e => acc ++ e.2.attrs.imports.filter (fun imp => !(hasNode g (some imp))))
    []

/-- get_unknown_modules: collect the unknown names, then add a
placeholder node for each. -/
def get_unknown_modules (g : Graph) : Graph :=
  (unknownList g).foldl (fun acc un => add_node acc (some un) unknownAttr) g

/-! ## return_dependency_tree_as_json

The function returns a node list and a link list; the link loop can
raise.  Python exceptions are modelled by Except: a TypeError when the
substring test partial in name is applied to a None endpoint, a
ValueError when list index is asked for an absent entry.  Each link also
carries the constant field value 1.0; a constant float field plays no
part in any claim and is left out of the Link record. -/

/-- Python substring test on character lists (needle, haystack). -/
def containsChars (p : List Char) : List Char → Bool
  | [] => startsWithChars p []
  | c :: cs => startsWithChars p (c :: cs) || containsChars p cs

/-- Python substring test p in s on strings. -/
def substrOf (p s : String) : Bool := containsChars p.toList s.toList

/-- Python list.index: position of the first occurrence, none when
absent (the ValueError case). -/
def pyIndex (k : NodeName) : List NodeName → Option Nat
  | [] => none
  | x :: xs => if x == k then some 0 else (pyIndex k xs).map (fun i => i + 1)

/-- An emitted node: the name, and the annotation when the yang_dict
holds one for the name. -/
structure ExportNode where
  name : NodeName
  email : Option String
deriving Repr, DecidableEq

/-- An emitted link (source and target are node indices; the constant
value 1.0 field is not modelled). -/
structure Link where
  source : Nat
  target : Nat
deriving Repr, DecidableEq

/-- The emitted object: node list and link list. -/
structure ExportOut where
  nodes : List ExportNode
  links : List Link
deriving Repr, DecidableEq

/-- The node loop filter: a node key is skipped when ignore_exact is a
nonempty list containing it, or when some nonempty entry of
ignore_partial is a substring of a truthy name (a None or empty name is
never skipped by the partial test, guarded by the truthiness of
node_name). -/
def nodeSkipped (ignoreExact : List NodeName) (ignorePartial : List String) (k : NodeName) : Bool :=
  (!ignoreExact.isEmpty && ignoreExact.contains k)
    || (!ignorePartial.isEmpty && ignorePartial.any (fun p =>
          !(p == "") && (match k with
            | some s => !(s == "") && substrOf p s
            | none => false)))

/-- The surviving node keys in iteration order; this list is idx_arr,
and the emitted node list is its image. -/
def exportIdxArr (g : Graph) (ignoreExact : List NodeName) (ignorePartial : List String) : List NodeName :=
  (g.nodes.map (fun e => e.1)).filter (fun k => !(nodeSkipped ignoreExact ignorePartial k))

/-- The partial loop of the link filter, in statement order: empty
entries are skipped; the test partial in a raises a TypeError when a is
None; when it is false, partial in z is evaluated the same way; a hit
sets the flag and the loop continues. -/
def linkPartialFound (z a : NodeName) : List String → Bool → Except String Bool
  | [], found => .ok found
  | p :: ps, found =>
    if p == "" then linkPartialFound z a ps found
    else
      match a with
      | none => .error "TypeError"
      | some sa =>
        if substrOf p sa then linkPartialFound z a ps true
        else
          match z with
          | none => .error "TypeError"
          | some sz => linkPartialFound z a ps (found || substrOf p sz)

/-- One iteration of the link loop for the edge (z, a): drop the edge
when an endpoint is in ignore_exact; when ignore_partial is nonempty run
the partial loop and drop the edge on a hit; otherwise look both
endpoints up in idx_arr (a first, as in the source) and append the link
with source the index of a and target the index of z. -/
def linkStep (idxArr : List NodeName) (ignoreExact : List NodeName) (ignorePartial : List String) (acc : List Link) (e : NodeName × NodeName) : Except String (List Link) :=
  if ignoreExact.contains e.2 || ignoreExact.contains e.1 then .ok acc
  else
    match (if 0 < ignorePartial.length then linkPartialFound e.1 e.2 ignorePartial false else .ok false : Except String Bool) with
    | .error s => .error s
    | .ok true => .ok acc
    | .ok false =>
      match pyIndex e.2 idxArr with
      | none => .error "ValueError"
      | some aIdx =>
        match pyIndex e.1 idxArr with
        | none => .error "ValueError"
        | some zIdx => .ok (acc ++ [⟨aIdx, zIdx⟩])

/-- The link loop over the edge list. -/
def buildLinks (idxArr : List NodeName) (ignoreExact : List NodeName) (ignorePartial : List String) (acc : List Link) : List (NodeName × NodeName) → Except String (List Link)
  | [] => .ok acc
  | e :: es =>
    match linkStep idxArr ignoreExact ignorePartial acc e with
    | .error s => .error s
    | .ok acc2 => buildLinks idxArr ignoreExact ignorePartial acc2 es

/-- return_dependency_tree_as_json on an explicit graph (the fallback
from a falsy graph argument to the global G happens before this body
and is not modelled).  yang_dict is an association list; get returns
its first binding or None. -/
def return_dependency_tree_as_json (g : Graph) (ignoreExact : List NodeName) (ignorePartial : List String) (yangDict : List (NodeName × String)) : Except String ExportOut :=
  match buildLinks (exportIdxArr g ignoreExact ignorePartial) ignoreExact ignorePartial [] g.edges with
  | .error s => .error s
  | .ok links =>
    .ok ⟨(exportIdxArr g ignoreExact ignorePartial).map
          (fun k => ExportNode.mk k (yangDict.lookup k)), links⟩

/-- Outcome of print_dependency_tree_as_json: the fatal branch
(sys.exit(1) before anything is computed or written), an exception
escaping from the export computation, or a write of the serialized
output to the named file. -/
inductive PrintResult where
  | fatalExit : PrintResult
  | raised : String → PrintResult
  | wrote : String → ExportOut → PrintResult
deriving Repr, DecidableEq

/-- print_dependency_tree_as_json: when filename is None, print the
complaint and exit; otherwise compute the export object and write it to
the file. -/
def print_dependency_tree_as_json (g : Graph) (filename : Option String) (ignoreExact : List NodeName) (ignorePartial : List String) (yangDict : List (NodeName × String)) : PrintResult :=
  match filename with
  | none => .fatalExit
  | some fn =>
    match return_dependency_tree_as_json g ignoreExact ignorePartial yangDict with
    | .error s => .raised s
    | .ok out => .wrote fn out

/-- A name is referenced in the graph when it occurs in the imports
attribute of some node. -/
def referenced (g : Graph) (s : String) : Bool :=
  g.nodes.any (fun e => e.2.attrs.imports.contains s)

/-! ## Basic lemmas about the graph dictionary -/

theorem hasNode_iff_exists {g : Graph} {k : NodeName} :
    hasNode g k = true ↔ ∃ e ∈ g.nodes, e.1 = k := by
  unfold hasNode lookupNode
  rcases hf : g.nodes.find? (fun e => e.1 == k) with _ | e <;> rw [hf]
  · constructor
    · intro h; simp at h
    · rintro ⟨e, he, hk⟩
      have := List.find?_eq_none.mp hf e he
      simp [hk] at this
  · constructor
    · intro _
      refine ⟨e, List.mem_of_find?_eq_some hf, ?_⟩
      simpa using List.find?_some hf
    · intro _; rfl

theorem hasNode_false_iff {g : Graph} {k : NodeName} :
    hasNode g k = false ↔ ∀ e ∈ g.nodes, e.1 ≠ k := by
  rw [← Bool.not_eq_true, hasNode_iff_exists]
  push_neg
  rfl

theorem lookupNode_eq_some_of_mem {g : Graph} {k : NodeName} {nd : NodeData}
    (hnd : (g.nodes.map (fun e => e.1)).Nodup) (hmem : (k, nd) ∈ g.nodes) :
    lookupNode g k = some nd := by
  unfold lookupNode
  rcases hf : g.nodes.find? (fun e => e.1 == k) with _ | e <;> rw [hf]
  · have := List.find?_eq_none.mp hf _ hmem
    simp at this
  · have hmem2 := List.mem_of_find?_eq_some hf
    have hkey : e.1 = k := by simpa using List.find?_some hf
    have heq : e = (k, nd) := by
      have h1 : (fun e => e.1) e = (fun e => e.1) ((k, nd) : NodeName × NodeData) := hkey
      exact List.inj_on_of_nodup_map hnd hmem2 hmem h1
    rw [heq]

theorem mem_of_lookupNode_eq_some {g : Graph} {k : NodeName} {nd : NodeData}
    (h : lookupNode g k = some nd) : (k, nd) ∈ g.nodes := by
  unfold lookupNode at h
  rcases hf : g.nodes.find? (fun e => e.1 == k) with _ | e
  · rw [hf] at h; cases h
  · rw [hf] at h
    have hmem := List.mem_of_find?_eq_some hf
    have hkey : e.1 = k := by simpa using List.find?_some hf
    rcases e with ⟨k2, nd2⟩
    cases h
    cases hkey
    exact hmem

theorem hasNode_of_mem {g : Graph} {k : NodeName} {nd : NodeData}
    (hmem : (k, nd) ∈ g.nodes) : hasNode g k = true :=
  hasNode_iff_exists.mpr ⟨(k, nd), hmem, rfl⟩

theorem hasNode_congr {g g2 : Graph} (h : g.nodes = g2.nodes) (k : NodeName) :
    hasNode g k = hasNode g2 k := by
  unfold hasNode lookupNode
  rw [h]

/-! ## Lemmas about add_node -/

theorem find?_key_of_map_update (nodes : List (NodeName × NodeData))
    (upd : NodeName × NodeData → NodeData) (k k2 : NodeName) :
    (nodes.map (fun e => if e.1 == k then (e.1, upd e) else e)).find? (fun e => e.1 == k2)
    = (nodes.find? (fun e => e.1 == k2)).map (fun e => if e.1 == k then (e.1, upd e) else e) := by
  rw [List.find?_map]
  have hp : ((fun (e : NodeName × NodeData) => e.1 == k2) ∘ fun e => if e.1 == k then (e.1, upd e) else e)
      = (fun (e : NodeName × NodeData) => e.1 == k2) := by
    funext e
    simp only [Function.comp_apply]
    split <;> rfl
  rw [hp]

theorem keys_map_update (nodes : List (NodeName × NodeData))
    (upd : NodeName × NodeData → NodeData) (k : NodeName) :
    (nodes.map (fun e => if e.1 == k then (e.1, upd e) else e)).map (fun e => e.1)
    = nodes.map (fun e => e.1) := by
  rw [List.map_map]
  congr 1
  funext e
  simp only [Function.comp_apply]
  split <;> rfl

theorem hasNode_iff_mem_keys {g : Graph} {k : NodeName} :
    hasNode g k = true ↔ k ∈ g.nodes.map (fun e => e.1) := by
  rw [hasNode_iff_exists]
  constructor
  · rintro ⟨e, he, rfl⟩
    exact List.mem_map_of_mem _ he
  · intro h
    rcases List.mem_map.mp h with ⟨e, he, rfl⟩
    exact ⟨e, he, rfl⟩

theorem keys_add_node (g : Graph) (k : NodeName) (a : Attr) :
    (add_node g k a).nodes.map (fun e => e.1)
    = if hasNode g k = true then g.nodes.map (fun e => e.1)
      else g.nodes.map (fun e => e.1) ++ [k] := by
  unfold add_node
  split
  · exact keys_map_update g.nodes (fun e => { e.2 with attrs := a }) k
  · simp

theorem hasNode_add_node {g : Graph} {k : NodeName} {a : Attr} {k2 : NodeName} :
    hasNode (add_node g k a) k2 = true ↔ (hasNode g k2 = true ∨ k2 = k) := by
  rw [hasNode_iff_mem_keys, hasNode_iff_mem_keys, keys_add_node]
  by_cases h : hasNode g k = true
  · rw [if_pos h]
    constructor
    · exact Or.inl
    · rintro (hm | rfl)
      · exact hm
      · exact hasNode_iff_mem_keys.mp h
  · rw [if_neg h]
    simp

theorem lookupNode_add_node_fresh {g : Graph} {k : NodeName} (a : Attr)
    (h : hasNode g k = false) :
    lookupNode (add_node g k a) k = some ⟨a, none⟩ := by
  unfold add_node
  rw [h]
  simp only [Bool.false_eq_true, if_false]
  unfold lookupNode
  have hnone : g.nodes.find? (fun e => e.1 == k) = none := by
    rw [List.find?_eq_none]
    intro e he
    have := hasNode_false_iff.mp h e he
    simpa using this
  rw [List.find?_append, hnone]
  simp

theorem lookupNode_add_node_other {g : Graph} {k k2 : NodeName} (a : Attr)
    (h : k2 ≠ k) :
    lookupNode (add_node g k a) k2 = lookupNode g k2 := by
  unfold add_node
  by_cases hh : hasNode g k = true
  · rw [if_pos hh]
    unfold lookupNode
    rw [find?_key_of_map_update g.nodes (fun e => { e.2 with attrs := a }) k k2]
    rcases hf : g.nodes.find? (fun e => e.1 == k2) with _ | e <;> rw [hf]
    · rfl
    · have hkey : e.1 = k2 := by simpa using List.find?_some hf
      have hek : (e.1 == k) = false := by
        rw [hkey]
        simpa using h
      simp [hek]
      rw [if_neg (by simpa using hek)]
  · rw [if_neg hh]
    unfold lookupNode
    have hs : ([(k, (⟨a, none⟩ : NodeData))].find? (fun e => e.1 == k2)) = none := by
      have hk : ((k, (⟨a, none⟩ : NodeData)).1 == k2) = false := by
        simpa using fun hc => h hc.symm
      simp [hk]
    rw [List.find?_append, hs, Option.or_none]

theorem lookupNode_add_node_update {g : Graph} {k : NodeName} {nd : NodeData} (a : Attr)
    (h : lookupNode g k = some nd) :
    lookupNode (add_node g k a) k = some { nd with attrs := a } := by
  have hh : hasNode g k = true := by unfold hasNode; rw [h]; rfl
  unfold add_node
  rw [if_pos hh]
  unfold lookupNode at h ⊢
  rw [find?_key_of_map_update g.nodes (fun e => { e.2 with attrs := a }) k k]
  rcases hf : g.nodes.find? (fun e => e.1 == k) with _ | e <;> rw [hf] at h ⊢
  · cases h
  · have hkey := List.find?_some hf
    rcases e with ⟨k3, nd3⟩
    cases h
    have hk3 : (k3 == k) = true := by simpa using hkey
    simp [hk3]
    rw [if_pos (by simpa using hk3)]

theorem nodes_add_edge (g : Graph) (u v : NodeName) :
    (add_edge g u v).nodes = g.nodes := by
  unfold add_edge
  split <;> rfl

theorem mem_edges_add_edge (g : Graph) (u v : NodeName) (e : NodeName × NodeName) :
    e ∈ (add_edge g u v).edges ↔ e ∈ g.edges ∨ e = (u, v) := by
  unfold add_edge
  split
  · constructor
    · exact Or.inl
    · rintro (he | rfl)
      · exact he
      · assumption
  · simp

/-! ## Lemmas about parse_yang_module -/

theorem parseStep_module (st : ParseResult) (l : String) :
    (parseStep st l).module
    = match matchModuleLine l with
      | some m => some m.2
      | none => st.module := by
  unfold parseStep
  rcases matchModuleLine l with _ | m <;>
    rcases matchImportLine l with _ | i <;>
      rcases matchIncludeLine l with _ | n <;>
        rcases matchRevisionLine l with _ | r <;> rfl

theorem parseStep_modType (st : ParseResult) (l : String) :
    (parseStep st l).modType
    = match matchModuleLine l with
      | some m => some (if m.1 then "sub" else "mod")
      | none => st.modType := by
  unfold parseStep
  rcases matchModuleLine l with _ | m <;>
    rcases matchImportLine l with _ | i <;>
      rcases matchIncludeLine l with _ | n <;>
        rcases matchRevisionLine l with _ | r <;> rfl

theorem parseStep_revisions (st : ParseResult) (l : String) :
    (parseStep st l).revisions = st.revisions ++ (matchRevisionLine l).toList := by
  unfold parseStep
  rcases matchModuleLine l with _ | m <;>
    rcases matchImportLine l with _ | i <;>
      rcases matchIncludeLine l with _ | n <;>
        rcases matchRevisionLine l with _ | r <;> simp

theorem foldl_parseStep_revisions (lines : List String) :
    ∀ st : ParseResult,
      (lines.foldl parseStep st).revisions
      = st.revisions ++ lines.filterMap matchRevisionLine := by
  induction lines with
  | nil => intro st; simp
  | cons l ls ih =>
    intro st
    rw [List.foldl_cons, ih (parseStep st l), parseStep_revisions,
      List.filterMap_cons]
    rcases matchRevisionLine l with _ | r <;> simp

theorem foldl_parseStep_module (lines : List String) :
    ∀ st : ParseResult,
      (lines.foldl parseStep st).module
      = match (lines.filterMap matchModuleLine).getLast? with
        | some m => some m.2
        | none => st.module := by
  induction lines with
  | nil => intro st; simp
  | cons l ls ih =>
    intro st
    rw [List.foldl_cons, ih (parseStep st l), List.filterMap_cons]
    rcases hm : matchModuleLine l with _ | m
    · rw [parseStep_module, hm]
    · rcases hls : ls.filterMap matchModuleLine with _ | ⟨x, xs⟩
      · rw [parseStep_module, hm]
        rfl
      · rcases hy : (x :: xs).getLast? with _ | y
        · rw [List.getLast?_eq_none_iff] at hy
          exact (List.cons_ne_nil x xs hy).elim
        · change _ = match (m :: x :: xs).getLast? with
            | some m2 => some m2.2
            | none => st.module
          rw [List.getLast?_cons_cons, hy]

theorem foldl_parseStep_modType (lines : List String) :
    ∀ st : ParseResult,
      (lines.foldl parseStep st).modType
      = match (lines.filterMap matchModuleLine).getLast? with
        | some m => some (if m.1 then "sub" else "mod")
        | none => st.modType := by
  induction lines with
  | nil => intro st; simp
  | cons l ls ih =>
    intro st
    rw [List.foldl_cons, ih (parseStep st l), List.filterMap_cons]
    rcases hm : matchModuleLine l with _ | m
    · rw [parseStep_modType, hm]
    · rcases hls : ls.filterMap matchModuleLine with _ | ⟨x, xs⟩
      · rw [parseStep_modType, hm]
        rfl
      · rcases hy : (x :: xs).getLast? with _ | y
        · rw [List.getLast?_eq_none_iff] at hy
          exact (List.cons_ne_nil x xs hy).elim
        · change _ = match (m :: x :: xs).getLast? with
            | some m2 => some (if m2.1 then "sub" else "mod")
            | none => st.modType
          rw [List.getLast?_cons_cons, hy]

/-! ## Claim theorems -/

/-- C7: for every sequence of input lines handed to parse_yang_module,
the revisions list holds, in encounter order, the date token of every
matching revision line (revision lines accumulate, none overwrites
another), and when module or submodule declaration lines match, the
returned module name and kind are those of the last matching
declaration line. -/
theorem c7_last_module_wins_revisions_accumulate (lines : List String) :
    (parse_yang_module lines).revisions = lines.filterMap matchRevisionLine
    ∧ ∀ m, (lines.filterMap matchModuleLine).getLast? = some m →
        (parse_yang_module lines).module = some m.2
        ∧ (parse_yang_module lines).modType = some (if m.1 then "sub" else "mod") := by
  refine ⟨?_, ?_⟩
  · rw [parse_yang_module, foldl_parseStep_revisions]
    rfl
  · intro m hm
    refine ⟨?_, ?_⟩
    · rw [parse_yang_module, foldl_parseStep_module, hm]
    · rw [parse_yang_module, foldl_parseStep_modType, hm]

theorem c7_witness :
    (["module a \x7b", "submodule b \x7b", "revision 2020-01-01 \x7b",
        "revision 2019-01-01 \x7b"].filterMap matchModuleLine).getLast?
      = some (true, "b")
    ∧ (parse_yang_module ["module a \x7b", "submodule b \x7b",
        "revision 2020-01-01 \x7b", "revision 2019-01-01 \x7b"]).module = some "b"
    ∧ (parse_yang_module ["module a \x7b", "submodule b \x7b",
        "revision 2020-01-01 \x7b", "revision 2019-01-01 \x7b"]).revisions
      = ["2020-01-01", "2019-01-01"] :=
  ⟨by decide,
    ((c7_last_module_wins_revisions_accumulate _).2 (true, "b") (by decide)).1,
    ((c7_last_module_wins_revisions_accumulate
      ["module a \x7b", "submodule b \x7b", "revision 2020-01-01 \x7b",
        "revision 2019-01-01 \x7b"]).1).trans (by decide)⟩

/-- C8: print_dependency_tree_as_json takes the fatal branch (immediate
process exit, nothing written) exactly when the filename argument is
None; for every non-null filename the fatal branch is not taken. -/
theorem c8_fatal_iff_no_filename (g : Graph) (ignoreExact : List NodeName)
    (ignorePartial : List String) (yangDict : List (NodeName × String))
    (filename : Option String) :
    print_dependency_tree_as_json g filename ignoreExact ignorePartial yangDict
      = PrintResult.fatalExit
    ↔ filename = none := by
  rcases filename with _ | fn
  · simp [print_dependency_tree_as_json]
  · unfold print_dependency_tree_as_json
    rcases return_dependency_tree_as_json g ignoreExact ignorePartial yangDict
      with s | out <;> simp

theorem c8_witness :
    print_dependency_tree_as_json emptyGraph none [] [] [] = PrintResult.fatalExit :=
  (c8_fatal_iff_no_filename emptyGraph [] [] [] none).mpr rfl

/-- C1 (code bug evaluation): ingesting two scans of module m, one with
revision 2019-01-01 and one with revision 2020-01-01, is order
dependent, and with the older scan first the stored revision attribute
stays 2019-01-01 rather than becoming the lexicographic maximum: the
replace branch writes the new attribute set to an attr_dict key that no
reader consults, leaving the revision attribute untouched. -/
theorem c1_stored_revision_order_dependent :
    (lookupNode (scan_file (scan_file emptyGraph "rfc"
        ["module m \x7b", "revision 2019-01-01 \x7b"]) "rfc"
        ["module m \x7b", "revision 2020-01-01 \x7b"]) (some "m")).map
      (fun nd => nd.attrs.revision) = some (some "2019-01-01")
    ∧ (lookupNode (scan_file (scan_file emptyGraph "rfc"
        ["module m \x7b", "revision 2020-01-01 \x7b"]) "rfc"
        ["module m \x7b", "revision 2019-01-01 \x7b"]) (some "m")).map
      (fun nd => nd.attrs.revision) = some (some "2020-01-01") := by
  constructor <;> rfl

/-- C2 (code bug evaluation): with an existing node m carrying revision
2019-01-01 and imports [a], a new scan of m with revision 2020-01-01 and
imports [b] satisfies the replacement condition (both revisions non-null
and the new one strictly greater), yet the stored attribute set is left
unchanged: the new set only lands in the unread attr_dict key. -/
theorem c2_attributes_never_replaced :
    (lookupNode (scan_file (scan_file emptyGraph "rfc"
        ["module m \x7b", "import a \x7b", "revision 2019-01-01 \x7b"]) "rfc"
        ["module m \x7b", "import b \x7b", "revision 2020-01-01 \x7b"]) (some "m")).map
      (fun nd => nd.attrs)
      = some ⟨some "mod", "rfc", ["a"], some "2019-01-01"⟩
    ∧ (lookupNode (scan_file (scan_file emptyGraph "rfc"
        ["module m \x7b", "import a \x7b", "revision 2019-01-01 \x7b"]) "rfc"
        ["module m \x7b", "import b \x7b", "revision 2020-01-01 \x7b"]) (some "m")).map
      (fun nd => nd.attrDict)
      = some (some ⟨some "mod", "rfc", ["b"], some "2020-01-01"⟩) := by
  constructor <;> rfl

/-- C10: scanning a readable file none of whose lines matches the
module or submodule declaration pattern still ingests a node: the
parser returns a null name and null kind, and node creation does not
check the name, so the graph gains a node whose key is the null
value. -/
theorem c10_null_name_node (g : Graph) (tag : String) (lines : List String)
    (hml : ∀ l ∈ lines, matchModuleLine l = none)
    (hno : hasNode g none = false) :
    (parse_yang_module lines).module = none
    ∧ (parse_yang_module lines).modType = none
    ∧ hasNode (scan_file g tag lines) none = true := by
  have hfm : lines.filterMap matchModuleLine = [] := by
    rw [List.filterMap_eq_nil_iff]
    exact hml
  have hmod : (parse_yang_module lines).module = none := by
    rw [parse_yang_module, foldl_parseStep_module, hfm]
    rfl
  have hty : (parse_yang_module lines).modType = none := by
    rw [parse_yang_module, foldl_parseStep_modType, hfm]
    rfl
  refine ⟨hmod, hty, ?_⟩
  unfold scan_file ingest
  rw [hmod]
  have hlk : lookupNode g none = none := by
    unfold hasNode at hno
    rcases hl : lookupNode g none with _ | nd
    · rfl
    · rw [hl] at hno; cases hno
  rw [hlk]
  have := lookupNode_add_node_fresh (g := g) (k := none)
    (⟨(parse_yang_module lines).modType, tag, (parse_yang_module lines).imports,
      maxRev (parse_yang_module lines).revisions⟩ : Attr) hno
  unfold hasNode
  rw [this]
  rfl

theorem c10_witness :
    (∀ l ∈ (["import b \x7b"] : List String), matchModuleLine l = none)
    ∧ hasNode (scan_file emptyGraph "rfc" ["import b \x7b"]) none = true :=
  ⟨by decide,
    (c10_null_name_node emptyGraph "rfc" ["import b \x7b"] (by decide) (by decide)).2.2⟩

/-! ## Lemmas about get_module_dependencies -/

theorem nodes_depEdgeStep (A : NodeName) (acc : Graph) (imp : String) :
    (depEdgeStep A acc imp).nodes = acc.nodes := by
  unfold depEdgeStep
  split
  · rw [nodes_add_edge]
  · rfl

theorem nodes_foldl_depEdgeStep (A : NodeName) (imps : List String) :
    ∀ acc : Graph, (imps.foldl (depEdgeStep A) acc).nodes = acc.nodes := by
  induction imps with
  | nil => intro acc; rfl
  | cons imp rest ih =>
    intro acc
    rw [List.foldl_cons, ih, nodes_depEdgeStep]

theorem nodes_foldl_depNodeStep (entries : List (NodeName × NodeData)) :
    ∀ acc : Graph, (entries.foldl depNodeStep acc).nodes = acc.nodes := by
  induction entries with
  | nil => intro acc; rfl
  | cons e rest ih =>
    intro acc
    rw [List.foldl_cons, ih]
    exact nodes_foldl_depEdgeStep e.1 e.2.attrs.imports acc

theorem mem_edges_foldl_depEdgeStep {g : Graph} (A : NodeName) (imps : List String) :
    ∀ acc : Graph, acc.nodes = g.nodes → ∀ e : NodeName × NodeName,
      (e ∈ (imps.foldl (depEdgeStep A) acc).edges
        ↔ e ∈ acc.edges ∨ ∃ imp ∈ imps, hasNode g (some imp) = true ∧ e = (A, some imp)) := by
  induction imps with
  | nil => intro acc hacc e; simp
  | cons imp rest ih =>
    intro acc hacc e
    rw [List.foldl_cons]
    have hstep : depEdgeStep A acc imp
        = if hasNode g (some imp) = true then add_edge acc A (some imp) else acc := by
      unfold depEdgeStep
      rw [hasNode_congr hacc (some imp)]
    by_cases h : hasNode g (some imp) = true
    · rw [hstep, if_pos h]
      rw [ih (add_edge acc A (some imp)) (by rw [nodes_add_edge]; exact hacc) e,
        mem_edges_add_edge]
      constructor
      · rintro ((he | rfl) | ⟨imp2, h2, h3, h4⟩)
        · exact Or.inl he
        · exact Or.inr ⟨imp, List.mem_cons_self imp rest, h, rfl⟩
        · exact Or.inr ⟨imp2, List.mem_cons_of_mem imp h2, h3, h4⟩
      · rintro (he | ⟨imp2, h2, h3, h4⟩)
        · exact Or.inl (Or.inl he)
        · rcases List.mem_cons.mp h2 with rfl | h2
          · exact Or.inl (Or.inr h4)
          · exact Or.inr ⟨imp2, h2, h3, h4⟩
    · rw [hstep, if_neg h]
      rw [ih acc hacc e]
      constructor
      · rintro (he | ⟨imp2, h2, h3, h4⟩)
        · exact Or.inl he
        · exact Or.inr ⟨imp2, List.mem_cons_of_mem imp h2, h3, h4⟩
      · rintro (he | ⟨imp2, h2, h3, h4⟩)
        · exact Or.inl he
        · rcases List.mem_cons.mp h2 with rfl | h2
          · exact absurd h3 h
          · exact Or.inr ⟨imp2, h2, h3, h4⟩

theorem mem_edges_foldl_depNodeStep {g : Graph} (entries : List (NodeName × NodeData)) :
    ∀ acc : Graph, acc.nodes = g.nodes → ∀ e : NodeName × NodeName,
      (e ∈ (entries.foldl depNodeStep acc).edges
        ↔ e ∈ acc.edges
          ∨ ∃ en ∈ entries, ∃ imp ∈ en.2.attrs.imports,
              hasNode g (some imp) = true ∧ e = (en.1, some imp)) := by
  induction entries with
  | nil => intro acc hacc e; simp
  | cons en rest ih =>
    intro acc hacc e
    rw [List.foldl_cons]
    have hacc2 : (depNodeStep acc en).nodes = g.nodes := by
      unfold depNodeStep
      rw [nodes_foldl_depEdgeStep]
      exact hacc
    rw [ih (depNodeStep acc en) hacc2 e]
    unfold depNodeStep
    rw [mem_edges_foldl_depEdgeStep en.1 en.2.attrs.imports acc hacc e]
    constructor
    · rintro ((he | ⟨imp, h2, h3, h4⟩) | ⟨en2, h2, imp, h3, h4, h5⟩)
      · exact Or.inl he
      · exact Or.inr ⟨en, List.mem_cons_self en rest, imp, h2, h3, h4⟩
      · exact Or.inr ⟨en2, List.mem_cons_of_mem en h2, imp, h3, h4, h5⟩
    · rintro (he | ⟨en2, h2, imp, h3, h4, h5⟩)
      · exact Or.inl (Or.inl he)
      · rcases List.mem_cons.mp h2 with rfl | h2
        · exact Or.inl (Or.inr ⟨imp, h3, h4, h5⟩)
        · exact Or.inr ⟨en2, h2, imp, h3, h4, h5⟩

/-- C3: after get_module_dependencies has run on a graph that does not
yet hold edges and whose node names are unique, the edge from A to B
exists exactly when B occurs in the stored imports attribute of the
node named A and a node named B exists. -/
theorem c3_edge_iff_import_and_node (g : Graph)
    (hnd : (g.nodes.map (fun e => e.1)).Nodup) (hE : g.edges = [])
    (A : NodeName) (B : String) :
    (A, some B) ∈ (get_module_dependencies g).edges
    ↔ ∃ nd, lookupNode g A = some nd ∧ B ∈ nd.attrs.imports
        ∧ hasNode g (some B) = true := by
  unfold get_module_dependencies
  rw [mem_edges_foldl_depNodeStep g.nodes g rfl (A, some B), hE]
  simp only [List.not_mem_nil, false_or]
  constructor
  · rintro ⟨en, hen, imp, himp, hB, heq⟩
    rcases Prod.mk.injEq .. ▸ heq with ⟨h1, h2⟩
    rcases Option.some.injEq .. ▸ h2 with rfl
    rcases en with ⟨k, nd⟩
    rcases h1 with rfl
    exact ⟨nd, lookupNode_eq_some_of_mem hnd hen, himp, hB⟩
  · rintro ⟨nd, hlk, himp, hB⟩
    exact ⟨(A, nd), mem_of_lookupNode_eq_some hlk, B, himp, hB, rfl⟩

theorem c3_witness :
    (some "a", some "b") ∈ (get_module_dependencies (scan_file (scan_file emptyGraph
      "rfc" ["module a \x7b", "revision 2020-01-01 \x7b", "import b \x7b"])
      "rfc" ["module b \x7b", "revision 2019-06-01 \x7b"])).edges :=
  (c3_edge_iff_import_and_node _ (by decide) (by decide) (some "a") "b").mpr
    ⟨⟨⟨some "mod", "rfc", ["b"], some "2020-01-01"⟩, none⟩, by decide, by decide, by decide⟩

/-! ## Lemmas about get_unknown_modules -/

theorem foldl_append_eq (f : NodeName × NodeData → List String)
    (entries : List (NodeName × NodeData)) :
    ∀ init : List String,
      entries.foldl (fun acc e => acc ++ f e) init = init ++ (entries.map f).flatten := by
  induction entries with
  | nil => intro init; simp
  | cons e rest ih =>
    intro init
    rw [List.foldl_cons, ih (init ++ f e)]
    simp

theorem unknownList_eq (g : Graph) :
    unknownList g
    = (g.nodes.map (fun e => e.2.attrs.imports.filter
        (fun imp => !(hasNode g (some imp))))).flatten := by
  unfold unknownList
  rw [foldl_append_eq]
  rfl

theorem mem_unknownList {g : Graph} {un : String} :
    un ∈ unknownList g
    ↔ (∃ e ∈ g.nodes, un ∈ e.2.attrs.imports) ∧ hasNode g (some un) = false := by
  rw [unknownList_eq, List.mem_flatten]
  constructor
  · rintro ⟨l, hl, hun⟩
    rcases List.mem_map.mp hl with ⟨e, he, rfl⟩
    rcases List.mem_filter.mp hun with ⟨h1, h2⟩
    exact ⟨⟨e, he, h1⟩, by simpa using h2⟩
  · rintro ⟨⟨e, he, h1⟩, h2⟩
    refine ⟨e.2.attrs.imports.filter (fun imp => !(hasNode g (some imp))),
      List.mem_map_of_mem _ he, List.mem_filter.mpr ⟨h1, by simpa using h2⟩⟩

theorem referenced_iff {g : Graph} {s : String} :
    referenced g s = true ↔ ∃ e ∈ g.nodes, s ∈ e.2.attrs.imports := by
  unfold referenced
  rw [List.any_eq_true]
  constructor
  · rintro ⟨e, he, hc⟩
    exact ⟨e, he, by simpa using hc⟩
  · rintro ⟨e, he, hc⟩
    exact ⟨e, he, by simpa using hc⟩

theorem hasNode_foldl_unknown (l : List String) :
    ∀ (g0 : Graph) (k : NodeName),
      hasNode (l.foldl (fun acc un => add_node acc (some un) unknownAttr) g0) k = true
      ↔ hasNode g0 k = true ∨ ∃ un ∈ l, k = some un := by
  induction l with
  | nil => intro g0 k; simp
  | cons un rest ih =>
    intro g0 k
    rw [List.foldl_cons, ih (add_node g0 (some un) unknownAttr) k]
    rw [hasNode_add_node]
    constructor
    · rintro ((h | h) | ⟨un2, h2, h3⟩)
      · exact Or.inl h
      · exact Or.inr ⟨un, List.mem_cons_self un rest, h⟩
      · exact Or.inr ⟨un2, List.mem_cons_of_mem un h2, h3⟩
    · rintro (h | ⟨un2, h2, h3⟩)
      · exact Or.inl (Or.inl h)
      · rcases List.mem_cons.mp h2 with rfl | h2
        · exact Or.inl (Or.inr h3)
        · exact Or.inr ⟨un2, h2, h3⟩

theorem lookup_foldl_unknown_preserved {s : String} (l : List String) :
    ∀ g0 : Graph, lookupNode g0 (some s) = some ⟨unknownAttr, none⟩ →
      lookupNode (l.foldl (fun acc un => add_node acc (some un) unknownAttr) g0) (some s)
      = some ⟨unknownAttr, none⟩ := by
  induction l with
  | nil => intro g0 h; exact h
  | cons un rest ih =>
    intro g0 h
    rw [List.foldl_cons]
    refine ih (add_node g0 (some un) unknownAttr) ?_
    by_cases hu : (some un : NodeName) = some s
    · rw [hu]
      rw [lookupNode_add_node_update unknownAttr h]
    · rw [lookupNode_add_node_other unknownAttr (fun hc => hu hc.symm)]
      exact h

theorem lookup_foldl_unknown_sets {s : String} (l : List String) :
    ∀ g0 : Graph, s ∈ l → hasNode g0 (some s) = false →
      lookupNode (l.foldl (fun acc un => add_node acc (some un) unknownAttr) g0) (some s)
      = some ⟨unknownAttr, none⟩ := by
  induction l with
  | nil => intro g0 h; cases h
  | cons un rest ih =>
    intro g0 hmem hno
    rw [List.foldl_cons]
    by_cases hu : un = s
    · subst hu
      exact lookup_foldl_unknown_preserved rest _ (lookupNode_add_node_fresh unknownAttr hno)
    · have hs : s ∈ rest := by
        rcases List.mem_cons.mp hmem with rfl | h
        · exact absurd rfl hu
        · exact h
      refine ih (add_node g0 (some un) unknownAttr) hs ?_
      have : lookupNode (add_node g0 (some un) unknownAttr) (some s) = lookupNode g0 (some s) :=
        lookupNode_add_node_other unknownAttr (by simpa using fun hc => hu hc.symm)
      unfold hasNode at hno ⊢
      rw [this]
      exact hno

theorem entries_foldl_unknown (l : List String) :
    ∀ g0 : Graph, ∀ e ∈ (l.foldl (fun acc un => add_node acc (some un) unknownAttr) g0).nodes,
      e ∈ g0.nodes ∨ e.2.attrs = unknownAttr := by
  induction l with
  | nil => intro g0 e he; exact Or.inl he
  | cons un rest ih =>
    intro g0 e he
    rw [List.foldl_cons] at he
    rcases ih (add_node g0 (some un) unknownAttr) e he with h | h
    · unfold add_node at h
      split at h
      · rcases List.mem_map.mp h with ⟨e0, he0, rfl⟩
        by_cases hek : (e0.1 == some un) = true
        · rw [if_pos hek]
          exact Or.inr rfl
        · rw [if_neg hek]
          exact Or.inl he0
      · rcases List.mem_append.mp h with h2 | h2
        · exact Or.inl h2
        · rcases List.mem_singleton.mp h2 with rfl
          exact Or.inr rfl
    · exact Or.inr h

/-- C4: get_unknown_modules creates a placeholder node for exactly the
names that occur in the imports attribute of some node without being a
node name themselves, and each placeholder carries kind module, the
unknown tag, an empty imports list and a null revision. -/
theorem c4_placeholders_exactly_unreferenced (g : Graph) :
    (∀ k : NodeName, hasNode (get_unknown_modules g) k = true
      ↔ (hasNode g k = true
          ∨ ∃ s : String, k = some s ∧ referenced g s = true ∧ hasNode g (some s) = false))
    ∧ ∀ s : String, referenced g s = true → hasNode g (some s) = false →
        lookupNode (get_unknown_modules g) (some s) = some ⟨unknownAttr, none⟩ := by
  constructor
  · intro k
    unfold get_unknown_modules
    rw [hasNode_foldl_unknown (unknownList g) g k]
    constructor
    · rintro (h | ⟨un, hun, rfl⟩)
      · exact Or.inl h
      · rcases mem_unknownList.mp hun with ⟨⟨e, he, h1⟩, h2⟩
        exact Or.inr ⟨un, rfl, referenced_iff.mpr ⟨e, he, h1⟩, h2⟩
    · rintro (h | ⟨s, rfl, h1, h2⟩)
      · exact Or.inl h
      · rcases referenced_iff.mp h1 with ⟨e, he, hs⟩
        exact Or.inr ⟨s, mem_unknownList.mpr ⟨⟨e, he, hs⟩, h2⟩, rfl⟩
  · intro s h1 h2
    unfold get_unknown_modules
    rcases referenced_iff.mp h1 with ⟨e, he, hs⟩
    exact lookup_foldl_unknown_sets (unknownList g) g
      (mem_unknownList.mpr ⟨⟨e, he, hs⟩, h2⟩) h2

theorem c4_witness :
    referenced (scan_file emptyGraph "draft"
      ["module q \x7b", "revision 2020-01-01 \x7b", "import z \x7b"]) "z" = true
    ∧ lookupNode (get_unknown_modules (scan_file emptyGraph "draft"
        ["module q \x7b", "revision 2020-01-01 \x7b", "import z \x7b"])) (some "z")
      = some ⟨unknownAttr, none⟩ :=
  ⟨by decide,
    (c4_placeholders_exactly_unreferenced (scan_file emptyGraph "draft"
      ["module q \x7b", "revision 2020-01-01 \x7b", "import z \x7b"])).2 "z"
      (by decide) (by decide)⟩

/-- C5: get_unknown_modules is idempotent: a second run immediately
after a first run returns the graph exactly as the first run left it,
since after the first run every referenced name is a node. -/
theorem c5_resolve_unknown_idempotent (g : Graph) :
    get_unknown_modules (get_unknown_modules g) = get_unknown_modules g := by
  have hempty : unknownList (get_unknown_modules g) = [] := by
    rw [unknownList_eq]
    rw [List.flatten_eq_nil_iff]
    intro l hl
    rcases List.mem_map.mp hl with ⟨e, he, rfl⟩
    rw [List.filter_eq_nil_iff]
    intro imp himp
    rcases entries_foldl_unknown (unknownList g) g e he with hmem | huk
    · have : hasNode (get_unknown_modules g) (some imp) = true := by
        unfold get_unknown_modules
        rw [hasNode_foldl_unknown (unknownList g) g (some imp)]
        by_cases h : hasNode g (some imp) = true
        · exact Or.inl h
        · refine Or.inr ⟨imp, ?_, rfl⟩
          exact mem_unknownList.mpr ⟨⟨e, hmem, himp⟩,
            by rcases hb : hasNode g (some imp) with _ | _
               · rfl
               · exact absurd hb h⟩
      simp [this]
    · rw [huk] at himp
      cases himp
  rw [show get_unknown_modules (get_unknown_modules g)
      = (unknownList (get_unknown_modules g)).foldl
          (fun acc un => add_node acc (some un) unknownAttr)
          (get_unknown_modules g) from rfl,
    hempty]
  rfl

/-! ## Lemmas about return_dependency_tree_as_json -/

theorem pyIndex_lt_length {k : NodeName} :
    ∀ {l : List NodeName} {i : Nat}, pyIndex k l = some i → i < l.length := by
  intro l
  induction l with
  | nil => intro i h; cases h
  | cons x xs ih =>
    intro i h
    unfold pyIndex at h
    by_cases hx : (x == k) = true
    · rw [if_pos hx] at h
      cases h
      simp
    · rw [if_neg hx] at h
      rcases hi : pyIndex k xs with _ | j <;> rw [hi] at h
      · cases h
      · cases h
        have := ih hi
        simpa using Nat.succ_lt_succ this

theorem pyIndex_get_of_nodup :
    ∀ (l : List NodeName), l.Nodup → ∀ i (h : i < l.length),
      pyIndex (l.get ⟨i, h⟩) l = some i := by
  intro l
  induction l with
  | nil => intro _ i h; cases h
  | cons x xs ih =>
    intro hnd i h
    rcases i with _ | j
    · unfold pyIndex
      simp
    · have hx : x ∉ xs := (List.nodup_cons.mp hnd).1
      have hget : (x :: xs).get ⟨j + 1, h⟩ = xs.get ⟨j, Nat.lt_of_succ_lt_succ h⟩ := rfl
      rw [hget]
      unfold pyIndex
      have hne : (x == xs.get ⟨j, Nat.lt_of_succ_lt_succ h⟩) = false := by
        have hmem : xs.get ⟨j, Nat.lt_of_succ_lt_succ h⟩ ∈ xs :=
          List.get_mem xs j (Nat.lt_of_succ_lt_succ h)
        have hxne : x ≠ xs.get ⟨j, Nat.lt_of_succ_lt_succ h⟩ := by
          intro hc
          rw [hc] at hx
          exact hx hmem
        exact beq_eq_false_iff_ne.mpr hxne
      rw [hne, if_neg (by simp : ¬(false = true))]
      rw [ih (List.nodup_cons.mp hnd).2 j (Nat.lt_of_succ_lt_succ h)]
      rfl

theorem linkStep_cases {idxArr ie : List NodeName} {ip : List String}
    {acc acc2 : List Link} {e : NodeName × NodeName}
    (h : linkStep idxArr ie ip acc e = .ok acc2) :
    acc2 = acc
    ∨ ∃ ai zi, pyIndex e.2 idxArr = some ai ∧ pyIndex e.1 idxArr = some zi
        ∧ acc2 = acc ++ [⟨ai, zi⟩] := by
  unfold linkStep at h
  by_cases h1 : (ie.contains e.2 || ie.contains e.1) = true
  · rw [if_pos h1] at h
    cases h
    exact Or.inl rfl
  · rw [if_neg h1] at h
    rcases hskip : (if 0 < ip.length then linkPartialFound e.1 e.2 ip false
        else .ok false : Except String Bool) with s | b <;> rw [hskip] at h
    · cases h
    · rcases b with _ | _
      · rcases hia : pyIndex e.2 idxArr with _ | ai <;> rw [hia] at h
        · cases h
        · rcases hiz : pyIndex e.1 idxArr with _ | zi <;> rw [hiz] at h
          · cases h
          · cases h
            exact Or.inr ⟨ai, zi, rfl, rfl, rfl⟩
      · cases h
        exact Or.inl rfl

theorem buildLinks_ok_sub {idxArr ie : List NodeName} {ip : List String} :
    ∀ (es : List (NodeName × NodeName)) (acc links : List Link),
      buildLinks idxArr ie ip acc es = .ok links → ∀ x ∈ acc, x ∈ links := by
  intro es
  induction es with
  | nil =>
    intro acc links h x hx
    cases h
    exact hx
  | cons e rest ih =>
    intro acc links h x hx
    unfold buildLinks at h
    rcases hs : linkStep idxArr ie ip acc e with s | acc3 <;> rw [hs] at h
    · cases h
    · refine ih acc3 links h x ?_
      rcases linkStep_cases hs with rfl | ⟨ai, zi, _, _, rfl⟩
      · exact hx
      · exact List.mem_append_left _ hx

theorem buildLinks_ok_bound {idxArr ie : List NodeName} {ip : List String} :
    ∀ (es : List (NodeName × NodeName)) (acc links : List Link),
      buildLinks idxArr ie ip acc es = .ok links →
      (∀ x ∈ acc, x.source < idxArr.length ∧ x.target < idxArr.length) →
      ∀ x ∈ links, x.source < idxArr.length ∧ x.target < idxArr.length := by
  intro es
  induction es with
  | nil =>
    intro acc links h hacc x hx
    cases h
    exact hacc x hx
  | cons e rest ih =>
    intro acc links h hacc x hx
    unfold buildLinks at h
    rcases hs : linkStep idxArr ie ip acc e with s | acc3 <;> rw [hs] at h
    · cases h
    · refine ih acc3 links h ?_ x hx
      rcases linkStep_cases hs with rfl | ⟨ai, zi, hia, hiz, rfl⟩
      · exact hacc
      · intro y hy
        rcases List.mem_append.mp hy with hy | hy
        · exact hacc y hy
        · rcases List.mem_singleton.mp hy with rfl
          exact ⟨pyIndex_lt_length hia, pyIndex_lt_length hiz⟩

theorem buildLinks_edge_link {idxArr ie : List NodeName} {ip : List String}
    {z a : NodeName} :
    ∀ (es : List (NodeName × NodeName)) (acc links : List Link),
      buildLinks idxArr ie ip acc es = .ok links →
      (z, a) ∈ es →
      (ie.contains a || ie.contains z) = false →
      (if 0 < ip.length then linkPartialFound z a ip false
        else .ok false : Except String Bool) = .ok false →
      ∃ ai zi, pyIndex a idxArr = some ai ∧ pyIndex z idxArr = some zi
        ∧ Link.mk ai zi ∈ links := by
  intro es
  induction es with
  | nil => intro acc links _ hmem; cases hmem
  | cons e rest ih =>
    intro acc links h hmem hie hskip
    unfold buildLinks at h
    rcases hs : linkStep idxArr ie ip acc e with s | acc3 <;> rw [hs] at h
    · cases h
    · rcases List.mem_cons.mp hmem with heq | hmem2
      · rcases heq.symm with rfl
        unfold linkStep at hs
        rw [if_neg (by rw [hie]; simp)] at hs
        rw [hskip] at hs
        rcases hia : pyIndex a idxArr with _ | ai <;> rw [hia] at hs
        · cases hs
        · rcases hiz : pyIndex z idxArr with _ | zi <;> rw [hiz] at hs
          · cases hs
          · cases hs
            refine ⟨ai, zi, rfl, rfl, ?_⟩
            exact buildLinks_ok_sub rest _ links h _
              (List.mem_append_right _ (List.mem_singleton_self _))
      · exact ih acc3 links h hmem2 hie hskip

/-- C6: on every export call that returns (any graph with unique node
names, any exclusion arguments, any annotation dictionary), the index
assignment is a bijection between the post-exclusion node list idx_arr
and the interval from 0 to the number of emitted nodes: position i of
idx_arr is mapped back to i by list index lookup, every member has an
index below the length, and the emitted node list has that same length;
moreover every emitted link carries a source and target index inside
that interval. -/
theorem c6_export_index_bijection (g : Graph) (ignoreExact : List NodeName)
    (ignorePartial : List String) (yangDict : List (NodeName × String))
    (out : ExportOut)
    (hnd : (g.nodes.map (fun e => e.1)).Nodup)
    (hok : return_dependency_tree_as_json g ignoreExact ignorePartial yangDict = .ok out) :
    out.nodes.length = (exportIdxArr g ignoreExact ignorePartial).length
    ∧ (∀ i (h : i < (exportIdxArr g ignoreExact ignorePartial).length),
        pyIndex ((exportIdxArr g ignoreExact ignorePartial).get ⟨i, h⟩)
          (exportIdxArr g ignoreExact ignorePartial) = some i)
    ∧ (∀ k ∈ exportIdxArr g ignoreExact ignorePartial,
        ∃ i, pyIndex k (exportIdxArr g ignoreExact ignorePartial) = some i
          ∧ i < (exportIdxArr g ignoreExact ignorePartial).length)
    ∧ ∀ l ∈ out.links,
        l.source < out.nodes.length ∧ l.target < out.nodes.length := by
  have hndf : (exportIdxArr g ignoreExact ignorePartial).Nodup := by
    unfold exportIdxArr
    exact List.Nodup.filter _ hnd
  unfold return_dependency_tree_as_json at hok
  rcases hbl : buildLinks (exportIdxArr g ignoreExact ignorePartial) ignoreExact
      ignorePartial [] g.edges with s | links <;> rw [hbl] at hok
  · cases hok
  · cases hok
    refine ⟨by simp, ?_, ?_, ?_⟩
    · intro i h
      exact pyIndex_get_of_nodup _ hndf i h
    · intro k hk
      rcases List.mem_iff_get.mp hk with ⟨⟨i, hi⟩, rfl⟩
      exact ⟨i, pyIndex_get_of_nodup _ hndf i hi, hi⟩
    · intro l hl
      have hb := buildLinks_ok_bound g.edges [] links hbl (by intro x hx; cases hx) l hl
      simpa using hb

theorem c6_witness :
    (ExportOut.mk [⟨some "a", none⟩, ⟨some "b", none⟩] [⟨1, 0⟩]).nodes.length
      = (exportIdxArr (Graph.mk
          [(some "a", ⟨⟨some "mod", "rfc", ["b"], some "2020-01-01"⟩, none⟩),
            (some "b", ⟨⟨some "mod", "rfc", [], some "2019-06-01"⟩, none⟩)]
          [(some "a", some "b")]) [] []).length :=
  (c6_export_index_bijection (Graph.mk
      [(some "a", ⟨⟨some "mod", "rfc", ["b"], some "2020-01-01"⟩, none⟩),
        (some "b", ⟨⟨some "mod", "rfc", [], some "2019-06-01"⟩, none⟩)]
      [(some "a", some "b")]) [] [] []
    (ExportOut.mk [⟨some "a", none⟩, ⟨some "b", none⟩] [⟨1, 0⟩])
    (by decide) (by rfl)).1

/-- C9: the direction of an emitted link is reversed with respect to
the graph edge: for every surviving edge (z, a), recording that module
z imports module a, the emitted link has source the index of a (the
imported module) and target the index of z (the importer). -/
theorem c9_link_direction_reversed (g : Graph) (ignoreExact : List NodeName)
    (ignorePartial : List String) (yangDict : List (NodeName × String))
    (out : ExportOut) (z a : NodeName)
    (hok : return_dependency_tree_as_json g ignoreExact ignorePartial yangDict = .ok out)
    (hmem : (z, a) ∈ g.edges)
    (hie : (ignoreExact.contains a || ignoreExact.contains z) = false)
    (hskip : (if 0 < ignorePartial.length
        then linkPartialFound z a ignorePartial false
        else .ok false : Except String Bool) = .ok false) :
    ∃ ai zi, pyIndex a (exportIdxArr g ignoreExact ignorePartial) = some ai
      ∧ pyIndex z (exportIdxArr g ignoreExact ignorePartial) = some zi
      ∧ Link.mk ai zi ∈ out.links := by
  unfold return_dependency_tree_as_json at hok
  rcases hbl : buildLinks (exportIdxArr g ignoreExact ignorePartial) ignoreExact
      ignorePartial [] g.edges with s | links <;> rw [hbl] at hok
  · cases hok
  · cases hok
    exact buildLinks_edge_link g.edges [] links hbl hmem hie hskip

theorem c9_witness :
    ∃ ai zi,
      pyIndex (some "d") (exportIdxArr (Graph.mk
        [(some "c", ⟨⟨some "mod", "draft", ["d"], some "2021-01-01"⟩, none⟩),
          (some "d", ⟨⟨some "mod", "draft", [], some "2018-03-01"⟩, none⟩)]
        [(some "c", some "d")]) [] []) = some ai
      ∧ pyIndex (some "c") (exportIdxArr (Graph.mk
        [(some "c", ⟨⟨some "mod", "draft", ["d"], some "2021-01-01"⟩, none⟩),
          (some "d", ⟨⟨some "mod", "draft", [], some "2018-03-01"⟩, none⟩)]
        [(some "c", some "d")]) [] []) = some zi
      ∧ Link.mk ai zi ∈ (ExportOut.mk [⟨some "c", none⟩, ⟨some "d", none⟩] [⟨1, 0⟩]).links :=
  c9_link_direction_reversed (Graph.mk
      [(some "c", ⟨⟨some "mod", "draft", ["d"], some "2021-01-01"⟩, none⟩),
        (some "d", ⟨⟨some "mod", "draft", [], some "2018-03-01"⟩, none⟩)]
      [(some "c", some "d")]) [] [] []
    (ExportOut.mk [⟨some "c", none⟩, ⟨some "d", none⟩] [⟨1, 0⟩])
    (some "c") (some "d") (by rfl) (by decide) (by decide) (by rfl)

end Symd
